import Mathlib

/-!
Shallow embedding of the `sot` script deployer (`src/script.rs`) and the
graph facade it drives, together with theorems checking the design
specification against the code.

The deployer itself (`Script`, `commands`, `deploy_one`, `deploy_to`,
`parse`, `parse_data`) is translated from `src/script.rs`. The graph
facade (`Sodg`) is not part of the given sources, so it is modelled from
the specification.
-/

deriving instance DecidableEq for Except

/-- Whitespace as used by trimming in the deployer (space, tab, LF, CR). -/
def isWs (c : Char) : Bool :=
  c = ' ' || c = '\t' || c = '\n' || c = '\r'

/-- Rust `str::trim`: drop whitespace from both ends. -/
def trimChars (l : List Char) : List Char :=
  (((l.dropWhile isWs).reverse).dropWhile isWs).reverse

/-- Rust `str::split(sep)`: split into the (possibly empty) segments
between occurrences of `sep`. -/
def splitOnChar (sep : Char) : List Char → List (List Char)
  | [] => [[]]
  | c :: rest =>
    if c = sep then [] :: splitOnChar sep rest
    else
      match splitOnChar sep rest with
      | [] => [[c]]
      | s :: ss => (c :: s) :: ss

/-- Scan to the first line feed; return the text after it, or `none`
when there is no line feed. -/
def dropToNewline : List Char → Option (List Char)
  | [] => none
  | c :: rest => if c = '\n' then some rest else dropToNewline rest

/-- Fuelled worker for `stripComments` (fuel keeps the recursion
structural, so that the kernel can evaluate it). -/
def stripCommentsFuel : Nat → List Char → List Char
  | 0, l => l
  | _ + 1, [] => []
  | fuel + 1, c :: rest =>
    if c = '#' then
      match dropToNewline rest with
      | some rest2 => stripCommentsFuel fuel rest2
      | none => c :: rest
    else c :: stripCommentsFuel fuel rest

/-- `Regex::new("#.*\n").replace_all(text, "")` from `Script::commands`:
remove every substring that starts at a `#` and extends up to and
including the next line feed. A `#` that is not followed by a line feed
is left in place. -/
def stripComments (l : List Char) : List Char :=
  stripCommentsFuel (l.length + 1) l

/-- `Script::commands`: strip comments, split on `;`, trim every
segment, drop the empty ones. -/
def commands (txt : List Char) : List (List Char) :=
  ((splitOnChar ';' (stripComments txt)).map trimChars).filter (fun t => t ≠ [])

/-- Modelled from the spec: the graph facade (`Sodg`) is external to the
given sources. Vertices, labeled edges and per-vertex payloads, plus the
state of the fresh-ID allocator (`next`). -/
structure Sodg where
  vertices : List Nat
  edges : List (Nat × Nat × String)
  payload : List (Nat × List Nat)
  next : Nat
deriving DecidableEq

/-- Modelled from the spec: the empty graph. -/
def Sodg.empty : Sodg := ⟨[], [], [], 0⟩

/-- Modelled from the spec: `add(id)` introduces a vertex and fails if
the id is already present. The allocator watermark moves past the added
id so that `next_id` stays never-before-used. -/
def Sodg.add (g : Sodg) (v : Nat) : Except String Sodg :=
  if v ∈ g.vertices then .error ("Vertex " ++ Nat.repr v ++ " already exists")
  else .ok { g with vertices := g.vertices ++ [v], next := max g.next (v + 1) }

/-- Modelled from the spec: `bind(from,to,label)` adds a labeled edge and
fails if either endpoint is missing or the label is already used on
`from`. -/
def Sodg.bind (g : Sodg) (v1 v2 : Nat) (a : String) : Except String Sodg :=
  if v1 ∉ g.vertices then .error ("Vertex " ++ Nat.repr v1 ++ " is absent")
  else if v2 ∉ g.vertices then .error ("Vertex " ++ Nat.repr v2 ++ " is absent")
  else if (g.edges.filter (fun e => e.1 = v1 ∧ e.2.2 = a)) ≠ [] then
    .error ("Label " ++ a ++ " already used")
  else .ok { g with edges := g.edges ++ [(v1, v2, a)] }

/-- Modelled from the spec: `put(id,bytes)` sets the payload of a vertex
and fails if the vertex is missing. -/
def Sodg.put (g : Sodg) (v : Nat) (d : List Nat) : Except String Sodg :=
  if v ∈ g.vertices then
    .ok { g with payload := (v, d) :: g.payload.filter (fun p => p.1 ≠ v) }
  else .error ("Vertex " ++ Nat.repr v ++ " is absent")

/-- Modelled from the spec: `next_id()` returns a never-before-used
vertex id (the watermark) and advances the allocator. -/
def Sodg.next_id (g : Sodg) : Nat × Sodg :=
  (g.next, { g with next := g.next + 1 })

/-- The variable table of a `Script` (`HashMap<String, u32>` in the
source), as an association list extended at the tail. -/
abbrev Vars := List (String × Nat)

/-- Lookup in the variable table. -/
def lookupVar : Vars → String → Option Nat
  | [], _ => none
  | (k, v) :: rest, n => if k = n then some v else lookupVar rest n

/-- Outcome of a failing deployer step: a returned `anyhow` error with
its chain of context messages (outermost first), or a Rust panic (an
out-of-bounds index), which carries no message and bypasses `context`. -/
inductive DeployErr where
  | fatal : DeployErr
  | err : List String → DeployErr
deriving DecidableEq

/-- `anyhow`'s `.context(msg)`: wrap a returned error with one more
message; a panic is not wrapped (it unwinds past `context`). -/
def ctx (msg : String) : DeployErr → DeployErr
  | .fatal => .fatal
  | .err l => .err (msg :: l)

/-- Numeric value of a list of decimal digits. -/
def digitsVal (l : List Char) : Nat :=
  l.foldl (fun a c => a * 10 + (c.toNat - 48)) 0

/-- Rust `u32::from_str`: an optional leading `+`, then one or more
decimal digits, rejecting values that overflow `u32`. -/
def parseU32 (l : List Char) : Option Nat :=
  let l2 := match l with
    | '+' :: t => t
    | _ => l
  if l2 ≠ [] ∧ l2.all (fun c => '0' ≤ c ∧ c ≤ '9') ∧ digitsVal l2 < 2 ^ 32 then
    some (digitsVal l2)
  else none

/-- `Script::parse`: resolve one trimmed argument to a vertex id. A `$`
head consults the variable table and allocates a fresh id on a miss; a
`ν` head parses the tail as a decimal `u32`; otherwise the whole string
is parsed as a decimal `u32`. Returns the updated table and graph. -/
def parse (vars : Vars) (g : Sodg) : List Char → Except DeployErr (Nat × Vars × Sodg)
  | [] => .error (.err ["Empty identifier"])
  | c :: t =>
    if c = '$' then
      match lookupVar vars (String.mk t) with
      | some v => .ok (v, vars, g)
      | none =>
        let p := g.next_id
        .ok (p.1, vars ++ [(String.mk t, p.1)], p.2)
    else if c = 'ν' then
      match parseU32 t with
      | some n => .ok (n, vars, g)
      | none =>
        .error (.err ["Parsing of \x27" ++ String.mk (c :: t) ++ "\x27 failed"])
    else
      match parseU32 (c :: t) with
      | some n => .ok (n, vars, g)
      | none =>
        .error (.err ["Parsing of \x27" ++ String.mk (c :: t) ++ "\x27 failed"])

/-- The characters removed by `Script::parse_data` before validation:
space, tab, LF, CR and `-`. -/
def isDataStrip (c : Char) : Bool :=
  c = ' ' || c = '\t' || c = '\n' || c = '\r' || c = '-'

/-- `Regex::new("[ \t\n\r\\-]").replace_all(s, "")`. -/
def stripData (s : List Char) : List Char :=
  s.filter (fun c => !isDataStrip c)

/-- One hexadecimal digit, either case. -/
def isHexChar (c : Char) : Bool :=
  ('0' ≤ c && c ≤ '9') || ('A' ≤ c && c ≤ 'F') || ('a' ≤ c && c ≤ 'f')

/-- Value of a hexadecimal digit (case-insensitive). -/
def hexVal (c : Char) : Nat :=
  if '0' ≤ c ∧ c ≤ '9' then c.toNat - 48
  else if 'A' ≤ c ∧ c ≤ 'F' then c.toNat - 55
  else c.toNat - 87

/-- `Regex::new("^[0-9A-Fa-f]{2}([0-9A-Fa-f]{2})*$")`: an even number of
hex digits, at least two. -/
def hexMatch (d : List Char) : Bool :=
  d.all isHexChar && decide (d.length % 2 = 0) && decide (2 ≤ d.length)

/-- Decode adjacent pairs of hex digits into bytes. -/
def decodePairs : List Char → List Nat
  | a :: b :: rest => (hexVal a * 16 + hexVal b) :: decodePairs rest
  | _ => []

/-- `Script::parse_data`: strip separators and whitespace, validate the
shape, decode pairs of hex digits into bytes. -/
def parse_data (s : List Char) : Except DeployErr (List Nat) :=
  let d := stripData s
  if hexMatch d then .ok (decodePairs d)
  else .error (.err ["Can\x27t parse data \x27" ++ String.mk s ++ "\x27"])

/-- ASCII uppercase letter, `[A-Z]`. -/
def isUpperAZ (c : Char) : Bool := 'A' ≤ c && c ≤ 'Z'

/-- The command-shape regex `^([A-Z]+) *\(([^)]*)\)$` of
`Script::deploy_one`: returns the opcode and the text between the
parentheses, or `none` when the shape does not match. -/
def parseLine (cmd : List Char) : Option (List Char × List Char) :=
  let op := cmd.takeWhile isUpperAZ
  let rest := cmd.dropWhile isUpperAZ
  if op = [] then none
  else
    match rest.dropWhile (fun c => c = ' ') with
    | '(' :: afterParen =>
      match afterParen.dropWhile (fun c => !(c = ')')) with
      | [')'] => some (op, afterParen.takeWhile (fun c => !(c = ')')))
      | _ => none
    | _ => none

/-- The argument list of `Script::deploy_one`: split the captured text
on `,`, trim each part, drop the empty ones. -/
def splitArgs (inner : List Char) : List (List Char) :=
  ((splitOnChar ',' inner).map trimChars).filter (fun t => t ≠ [])

/-- `Script::deploy_one`: parse the command shape, dispatch on the
opcode, and run the facade mutation. Returns the step outcome together
with the variable table and graph as left behind (Rust mutates them in
place, so they survive an error and a panic alike). Missing arguments
are out-of-bounds vector accesses in the source and are modelled as
`DeployErr.fatal`. -/
def deployOne (vars : Vars) (g : Sodg) (cmd : List Char) :
    Except DeployErr Unit × Vars × Sodg :=
  match parseLine cmd with
  | none => (.error (.err ["Can\x27t parse \x27" ++ String.mk cmd ++ "\x27"]), vars, g)
  | some (op, inner) =>
    if op = "ADD".data then
      match (splitArgs inner)[0]? with
      | none => (.error .fatal, vars, g)
      | some a0 =>
        match parse vars g a0 with
        | .error e => (.error e, vars, g)
        | .ok (v, vars1, g1) =>
          match g1.add v with
          | .ok g2 => (.ok (), vars1, g2)
          | .error m =>
            (.error (ctx ("Failed to ADD(" ++ String.mk a0 ++ ")") (.err [m])), vars1, g1)
    else if op = "BIND".data then
      match (splitArgs inner)[0]? with
      | none => (.error .fatal, vars, g)
      | some a0 =>
        match parse vars g a0 with
        | .error e => (.error e, vars, g)
        | .ok (v1, vars1, g1) =>
          match (splitArgs inner)[1]? with
          | none => (.error .fatal, vars1, g1)
          | some a1 =>
            match parse vars1 g1 a1 with
            | .error e => (.error e, vars1, g1)
            | .ok (v2, vars2, g2) =>
              match (splitArgs inner)[2]? with
              | none => (.error .fatal, vars2, g2)
              | some a2 =>
                match g2.bind v1 v2 (String.mk a2) with
                | .ok g3 => (.ok (), vars2, g3)
                | .error m =>
                  (.error (ctx ("Failed to BIND(" ++ String.mk a0 ++ ", " ++
                    String.mk a1 ++ ", " ++ String.mk a2 ++ ")") (.err [m])), vars2, g2)
    else if op = "PUT".data then
      match (splitArgs inner)[0]? with
      | none => (.error .fatal, vars, g)
      | some a0 =>
        match parse vars g a0 with
        | .error e => (.error e, vars, g)
        | .ok (v, vars1, g1) =>
          match (splitArgs inner)[1]? with
          | none => (.error .fatal, vars1, g1)
          | some a1 =>
            match parse_data a1 with
            | .error e => (.error e, vars1, g1)
            | .ok d =>
              match g1.put v d with
              | .ok g2 => (.ok (), vars1, g2)
              | .error m =>
                (.error (ctx ("Failed to PUT(" ++ String.mk a0 ++ ")") (.err [m])), vars1, g1)
    else (.error (.err ["Unknown command: " ++ String.mk op]), vars, g)

/-- The loop of `Script::deploy_to`: run the commands in order, counting
the successes in `pos`; on the first failing command, wrap its error
with the positional context and stop. The table and graph as mutated so
far are returned in every case. -/
def deployLoop (vars : Vars) (g : Sodg) :
    List (List Char) → Nat → Except DeployErr Nat × Vars × Sodg
  | [], pos => (.ok pos, vars, g)
  | cmd :: rest, pos =>
    match deployOne vars g cmd with
    | (.ok _, vars1, g1) => deployLoop vars1 g1 rest (pos + 1)
    | (.error e, vars1, g1) =>
      (.error (ctx ("Failure at the command no." ++ Nat.repr pos ++ ": \x27" ++
        String.mk cmd ++ "\x27") e), vars1, g1)

/-- `Script`: the text buffer and the variable table. -/
structure Script where
  txt : List Char
  vars : Vars
deriving DecidableEq

/-- `Script::from_str`: a fresh script with an empty variable table. -/
def Script.from_str (s : List Char) : Script := ⟨s, []⟩

/-- `Script::deploy_to`: tokenize the text and run the deploy loop from
the script's current variable table, returning the count of applied
commands on success. The script keeps the table the loop left behind. -/
def Script.deploy_to (sc : Script) (g : Sodg) :
    Except DeployErr Nat × Script × Sodg :=
  match deployLoop sc.vars g (commands sc.txt) 0 with
  | (r, vars2, g2) => (r, { sc with vars := vars2 }, g2)

/-- Every id in the table is below the allocator watermark. -/
def VarsBound (vars : Vars) (n : Nat) : Prop := ∀ p ∈ vars, p.2 < n

/-- Distinct variable names are bound to distinct ids. -/
def VarsInj (vars : Vars) : Prop :=
  ∀ p ∈ vars, ∀ q ∈ vars, p.1 ≠ q.1 → p.2 ≠ q.2

/-- Everything the later theorems need about one step of the deployer:
the variable table only ever grows at the tail; the bound/injectivity
invariant of the table is preserved; and a failing command leaves the
vertices, edges and payloads of the graph exactly as they were. -/
abbrev StepConcl (vars : Vars) (g : Sodg) (r : Except DeployErr Unit)
    (vars2 : Vars) (g2 : Sodg) : Prop :=
  (∃ ex, vars2 = vars ++ ex) ∧
  (VarsBound vars g.next → VarsInj vars → VarsBound vars2 g2.next ∧ VarsInj vars2) ∧
  (∀ e, r = .error e →
    g2.vertices = g.vertices ∧ g2.edges = g.edges ∧ g2.payload = g.payload)

/-- Canonical form of one payload character: hex digits are identified
with their numeric value (so letter case is erased), all other
characters stand for themselves. -/
def canonChar (c : Char) : Nat ⊕ Char :=
  if isHexChar c then .inl (hexVal c) else .inr c

/-- Canonical form of a payload string: separators and whitespace
removed, hex digits identified up to case. Two strings that differ only
in whitespace, `-` separators, or the case of hex digits have the same
canonical form. -/
def canonData (s : List Char) : List (Nat ⊕ Char) :=
  (stripData s).map canonChar

/-! ### Lemmas about the tokenizer -/

theorem dropToNewline_length : ∀ {l l2 : List Char},
    dropToNewline l = some l2 → l2.length < l.length := by
  intro l
  induction l with
  | nil => intro l2 h; simp [dropToNewline] at h
  | cons c rest ih =>
    intro l2 h
    simp only [dropToNewline] at h
    split at h
    · injection h with h2
      subst h2
      simp
    · exact Nat.lt_trans (ih h) (by simp)

theorem stripFuel_congr : ∀ (f1 f2 : Nat) (l : List Char),
    l.length < f1 → l.length < f2 →
    stripCommentsFuel f1 l = stripCommentsFuel f2 l := by
  intro f1
  induction f1 with
  | zero => intro f2 l h1 h2; omega
  | succ f1 ih =>
    intro f2 l h1 h2
    cases f2 with
    | zero => omega
    | succ f2 =>
      cases l with
      | nil => rfl
      | cons c rest =>
        simp only [List.length_cons] at h1 h2
        simp only [stripCommentsFuel]
        by_cases hc : c = '#'
        · rw [if_pos hc, if_pos hc]
          cases hdn : dropToNewline rest with
          | some r2 =>
            have hlen := dropToNewline_length hdn
            exact ih f2 r2 (by omega) (by omega)
          | none => rfl
        · rw [if_neg hc, if_neg hc, ih f2 rest (by omega) (by omega)]

theorem stripComments_cons (c : Char) (rest : List Char) :
    stripComments (c :: rest) =
      if c = '#' then
        match dropToNewline rest with
        | some r2 => stripComments r2
        | none => c :: rest
      else c :: stripComments rest := by
  show stripCommentsFuel (rest.length + 1 + 1) (c :: rest) = _
  simp only [stripCommentsFuel]
  by_cases hc : c = '#'
  · rw [if_pos hc, if_pos hc]
    cases hdn : dropToNewline rest with
    | some r2 =>
      have hlen := dropToNewline_length hdn
      exact stripFuel_congr _ _ r2 (by omega) (by omega)
    | none => rfl
  · rw [if_neg hc, if_neg hc]
    rfl

theorem dropToNewline_no_nl : ∀ {b : List Char}, '\n' ∉ b → dropToNewline b = none := by
  intro b
  induction b with
  | nil => intro _; rfl
  | cons x b ih =>
    intro h
    have hx : ¬x = '\n' := fun he => h (he ▸ List.mem_cons_self x b)
    simp only [dropToNewline, if_neg hx]
    exact ih (fun hm => h (List.mem_cons_of_mem x hm))

theorem dropToNewline_split (c : List Char) : ∀ {b : List Char}, '\n' ∉ b →
    dropToNewline (b ++ '\n' :: c) = some c := by
  intro b
  induction b with
  | nil => intro _; simp [dropToNewline]
  | cons x b ih =>
    intro h
    have hx : ¬x = '\n' := fun he => h (he ▸ List.mem_cons_self x b)
    simp only [List.cons_append, dropToNewline, if_neg hx]
    exact ih (fun hm => h (List.mem_cons_of_mem x hm))

theorem stripComments_comment (c : List Char) : ∀ {a b : List Char},
    '#' ∉ a → '\n' ∉ b →
    stripComments (a ++ '#' :: (b ++ '\n' :: c)) = a ++ stripComments c := by
  intro a
  induction a with
  | nil =>
    intro b _ hb
    rw [List.nil_append, stripComments_cons, if_pos rfl, dropToNewline_split c hb,
      List.nil_append]
  | cons x a ih =>
    intro b ha hb
    have hx : ¬x = '#' := fun he => ha (he ▸ List.mem_cons_self x a)
    rw [List.cons_append, stripComments_cons, if_neg hx,
      ih (fun hm => ha (List.mem_cons_of_mem x hm)) hb, List.cons_append]

theorem stripComments_eof_comment : ∀ {a b : List Char},
    '#' ∉ a → '\n' ∉ b →
    stripComments (a ++ '#' :: b) = a ++ '#' :: b := by
  intro a
  induction a with
  | nil =>
    intro b _ hb
    rw [List.nil_append, stripComments_cons, if_pos rfl, dropToNewline_no_nl hb]
  | cons x a ih =>
    intro b ha hb
    have hx : ¬x = '#' := fun he => ha (he ▸ List.mem_cons_self x a)
    rw [List.cons_append, stripComments_cons, if_neg hx,
      ih (fun hm => ha (List.mem_cons_of_mem x hm)) hb]

theorem splitOnChar_ne_nil (sep : Char) : ∀ l : List Char, splitOnChar sep l ≠ [] := by
  intro l
  induction l with
  | nil => simp [splitOnChar]
  | cons c rest ih =>
    simp only [splitOnChar]
    by_cases hc : c = sep
    · simp [hc]
    · rw [if_neg hc]
      cases h : splitOnChar sep rest with
      | nil => exact absurd h ih
      | cons s ss => simp

theorem splitOnChar_append_sep (sep : Char) :
    ∀ s : List Char, splitOnChar sep (s ++ [sep]) = splitOnChar sep s ++ [[]] := by
  intro s
  induction s with
  | nil => simp [splitOnChar]
  | cons c rest ih =>
    simp only [List.cons_append, splitOnChar]
    by_cases hc : c = sep
    · rw [if_pos hc, if_pos hc, List.append_eq, ih]
      rfl
    · rw [if_neg hc, if_neg hc, List.append_eq, ih]
      cases h : splitOnChar sep rest with
      | nil => exact absurd h (splitOnChar_ne_nil sep rest)
      | cons x xs => rfl

/-! ### Lemmas about the variable table and the argument parser -/

theorem lookupVar_append_some {ex : Vars} {v : String} {i : Nat} :
    ∀ {vars : Vars}, lookupVar vars v = some i → lookupVar (vars ++ ex) v = some i := by
  intro vars
  induction vars with
  | nil => intro h; simp [lookupVar] at h
  | cons p rest ih =>
    obtain ⟨k, x⟩ := p
    intro h
    simp only [lookupVar] at h
    simp only [List.cons_append, lookupVar]
    by_cases hk : k = v
    · rw [if_pos hk] at h ⊢
      exact h
    · rw [if_neg hk] at h ⊢
      exact ih h

theorem lookupVar_mem {v : String} {i : Nat} :
    ∀ {vars : Vars}, lookupVar vars v = some i → (v, i) ∈ vars := by
  intro vars
  induction vars with
  | nil => intro h; simp [lookupVar] at h
  | cons p rest ih =>
    obtain ⟨k, x⟩ := p
    intro h
    simp only [lookupVar] at h
    by_cases hk : k = v
    · rw [if_pos hk] at h
      injection h with h2
      subst hk
      subst h2
      exact List.mem_cons_self _ _
    · rw [if_neg hk] at h
      exact List.mem_cons_of_mem _ (ih h)

/-- Exhaustive description of the successful runs of `parse`: either the
state is untouched, or the argument was an unbound `$`-variable and the
table gained exactly one binding at the allocator watermark. -/
theorem parse_ok_cases {vars : Vars} {g : Sodg} {s : List Char} {x : Nat}
    {vars2 : Vars} {g2 : Sodg}
    (h : parse vars g s = .ok (x, vars2, g2)) :
    (vars2 = vars ∧ g2 = g) ∨
    (∃ t, s = '$' :: t ∧ lookupVar vars (String.mk t) = none ∧ x = g.next ∧
      vars2 = vars ++ [(String.mk t, g.next)] ∧ g2 = { g with next := g.next + 1 }) := by
  cases s with
  | nil => simp [parse] at h
  | cons c t =>
    simp only [parse] at h
    by_cases hc : c = '$'
    · rw [if_pos hc] at h
      cases hl : lookupVar vars (String.mk t) with
      | some v =>
        rw [hl] at h
        simp only [Except.ok.injEq, Prod.mk.injEq] at h
        exact Or.inl ⟨h.2.1.symm, h.2.2.symm⟩
      | none =>
        rw [hl] at h
        simp only [Sodg.next_id, Except.ok.injEq, Prod.mk.injEq] at h
        exact Or.inr ⟨t, by rw [hc], hl, h.1.symm, h.2.1.symm, h.2.2.symm⟩
    · rw [if_neg hc] at h
      by_cases hn : c = 'ν'
      · rw [if_pos hn] at h
        cases hp : parseU32 t with
        | some n =>
          rw [hp] at h
          simp only [Except.ok.injEq, Prod.mk.injEq] at h
          exact Or.inl ⟨h.2.1.symm, h.2.2.symm⟩
        | none => rw [hp] at h; simp at h
      · rw [if_neg hn] at h
        cases hp : parseU32 (c :: t) with
        | some n =>
          rw [hp] at h
          simp only [Except.ok.injEq, Prod.mk.injEq] at h
          exact Or.inl ⟨h.2.1.symm, h.2.2.symm⟩
        | none => rw [hp] at h; simp at h

theorem parse_suffix {vars : Vars} {g : Sodg} {s : List Char} {x : Nat}
    {vars2 : Vars} {g2 : Sodg} (h : parse vars g s = .ok (x, vars2, g2)) :
    ∃ ex, vars2 = vars ++ ex := by
  rcases parse_ok_cases h with ⟨hv, _⟩ | ⟨t, _, _, _, hv, _⟩
  · exact ⟨[], by rw [hv, List.append_nil]⟩
  · exact ⟨[(String.mk t, g.next)], hv⟩

theorem parse_graph {vars : Vars} {g : Sodg} {s : List Char} {x : Nat}
    {vars2 : Vars} {g2 : Sodg} (h : parse vars g s = .ok (x, vars2, g2)) :
    g2.vertices = g.vertices ∧ g2.edges = g.edges ∧ g2.payload = g.payload ∧
      g.next ≤ g2.next := by
  rcases parse_ok_cases h with ⟨_, hg⟩ | ⟨t, _, _, _, _, hg⟩ <;> subst hg
  · exact ⟨rfl, rfl, rfl, le_rfl⟩
  · exact ⟨rfl, rfl, rfl, Nat.le_succ _⟩

theorem parse_inv {vars : Vars} {g : Sodg} {s : List Char} {x : Nat}
    {vars2 : Vars} {g2 : Sodg}
    (hb : VarsBound vars g.next) (hi : VarsInj vars)
    (h : parse vars g s = .ok (x, vars2, g2)) :
    VarsBound vars2 g2.next ∧ VarsInj vars2 := by
  rcases parse_ok_cases h with ⟨hv, hg⟩ | ⟨t, _, _, _, hv, hg⟩
  · subst hv; subst hg; exact ⟨hb, hi⟩
  · subst hv
    subst hg
    constructor
    · intro p hp
      rcases List.mem_append.mp hp with hp | hp
      · exact Nat.lt_trans (hb p hp) (Nat.lt_succ_self _)
      · simp only [List.mem_singleton] at hp
        subst hp
        exact Nat.lt_succ_self _
    · intro p hp q hq hne
      rcases List.mem_append.mp hp with hp | hp <;>
        rcases List.mem_append.mp hq with hq | hq
      · exact hi p hp q hq hne
      · simp only [List.mem_singleton] at hq
        subst hq
        exact Nat.ne_of_lt (hb p hp)
      · simp only [List.mem_singleton] at hp
        subst hp
        exact (Nat.ne_of_lt (hb q hq)).symm
      · simp only [List.mem_singleton] at hp hq
        subst hp
        subst hq
        exact absurd rfl hne

/-! ### Lemmas about the facade operations (modelled from the spec) -/

theorem Sodg.add_ok {g : Sodg} {v : Nat} {g2 : Sodg} (h : Sodg.add g v = .ok g2) :
    g2.edges = g.edges ∧ g2.payload = g.payload ∧ g.next ≤ g2.next := by
  unfold Sodg.add at h
  split at h
  · simp at h
  · injection h with h2
    subst h2
    exact ⟨rfl, rfl, Nat.le_max_left _ _⟩

theorem Sodg.bind_ok {g : Sodg} {v1 v2 : Nat} {a : String} {g2 : Sodg}
    (h : Sodg.bind g v1 v2 a = .ok g2) :
    g2.vertices = g.vertices ∧ g2.payload = g.payload ∧ g2.next = g.next := by
  unfold Sodg.bind at h
  split at h
  · simp at h
  · split at h
    · simp at h
    · split at h
      · simp at h
      · injection h with h2
        subst h2
        exact ⟨rfl, rfl, rfl⟩

theorem Sodg.put_ok {g : Sodg} {v : Nat} {d : List Nat} {g2 : Sodg}
    (h : Sodg.put g v d = .ok g2) :
    g2.vertices = g.vertices ∧ g2.edges = g.edges ∧ g2.next = g.next := by
  unfold Sodg.put at h
  split at h
  · injection h with h2
    subst h2
    exact ⟨rfl, rfl, rfl⟩
  · simp at h

/-! ### The combined step lemma for `deployOne` -/

theorem deployOne_step {vars : Vars} {g : Sodg} {cmd : List Char}
    {r : Except DeployErr Unit} {vars2 : Vars} {g2 : Sodg}
    (h : deployOne vars g cmd = (r, vars2, g2)) :
    StepConcl vars g r vars2 g2 := by
  have unchanged : ∀ (r0 : Except DeployErr Unit), (r0, vars, g) = (r, vars2, g2) →
      StepConcl vars g r vars2 g2 := by
    intro r0 h0
    simp only [Prod.mk.injEq] at h0
    obtain ⟨_, hv, hg⟩ := h0
    subst hv
    subst hg
    exact ⟨⟨[], by rw [List.append_nil]⟩, fun hb hi => ⟨hb, hi⟩, fun e _ => ⟨rfl, rfl, rfl⟩⟩
  have onep : ∀ {a0 : List Char} {v : Nat} {vA : Vars} {gA : Sodg},
      parse vars g a0 = .ok (v, vA, gA) →
      ∀ r0 : Except DeployErr Unit, (r0, vA, gA) = (r, vars2, g2) →
      StepConcl vars g r vars2 g2 := by
    intro a0 v vA gA hp r0 h0
    simp only [Prod.mk.injEq] at h0
    obtain ⟨_, hv, hg⟩ := h0
    subst hv
    subst hg
    exact ⟨parse_suffix hp, fun hb hi => parse_inv hb hi hp,
      fun e _ => ⟨(parse_graph hp).1, (parse_graph hp).2.1, (parse_graph hp).2.2.1⟩⟩
  have twop : ∀ {a0 a1 : List Char} {v1 v2 : Nat} {vA vB : Vars} {gA gB : Sodg},
      parse vars g a0 = .ok (v1, vA, gA) →
      parse vA gA a1 = .ok (v2, vB, gB) →
      ∀ r0 : Except DeployErr Unit, (r0, vB, gB) = (r, vars2, g2) →
      StepConcl vars g r vars2 g2 := by
    intro a0 a1 v1 v2 vA vB gA gB hp1 hp2 r0 h0
    simp only [Prod.mk.injEq] at h0
    obtain ⟨_, hv, hg⟩ := h0
    subst hv
    subst hg
    obtain ⟨ex1, he1⟩ := parse_suffix hp1
    obtain ⟨ex2, he2⟩ := parse_suffix hp2
    refine ⟨⟨ex1 ++ ex2, by rw [he2, he1, List.append_assoc]⟩, fun hb hi => ?_,
      fun e _ => ?_⟩
    · obtain ⟨hb1, hi1⟩ := parse_inv hb hi hp1
      exact parse_inv hb1 hi1 hp2
    · have q1 := parse_graph hp1
      have q2 := parse_graph hp2
      exact ⟨q2.1.trans q1.1, q2.2.1.trans q1.2.1, q2.2.2.1.trans q1.2.2.1⟩
  unfold deployOne at h
  split at h
  · exact unchanged _ h
  split at h
  · -- ADD
    split at h
    · exact unchanged _ h
    split at h
    · exact unchanged _ h
    case _ a0 v vars1 g1 hp =>
      split at h
      case _ g3 hadd =>
        simp only [Prod.mk.injEq] at h
        obtain ⟨hr, hv, hg⟩ := h
        subst hv
        subst hg
        obtain ⟨hae, hap, han⟩ := Sodg.add_ok hadd
        refine ⟨parse_suffix hp, fun hb hi => ?_,
          fun e he => by rw [← hr] at he; simp at he⟩
        obtain ⟨hb1, hi1⟩ := parse_inv hb hi hp
        exact ⟨fun p hp2 => Nat.lt_of_lt_of_le (hb1 p hp2) han, hi1⟩
      case _ m hadd => exact onep hp _ h
  split at h
  · -- BIND
    split at h
    · exact unchanged _ h
    split at h
    · exact unchanged _ h
    case _ a0 v1 vA gA hp1 =>
      split at h
      · exact onep hp1 _ h
      split at h
      · exact onep hp1 _ h
      case _ a1 v2 vB gB hp2 =>
        split at h
        · exact twop hp1 hp2 _ h
        case _ a2 =>
          split at h
          case _ g3 hbind =>
            simp only [Prod.mk.injEq] at h
            obtain ⟨hr, hv, hg⟩ := h
            subst hv
            subst hg
            obtain ⟨ex1, he1⟩ := parse_suffix hp1
            obtain ⟨ex2, he2⟩ := parse_suffix hp2
            obtain ⟨hbv, hbp, hbn⟩ := Sodg.bind_ok hbind
            refine ⟨⟨ex1 ++ ex2, by rw [he2, he1, List.append_assoc]⟩, fun hb hi => ?_,
              fun e he => by rw [← hr] at he; simp at he⟩
            obtain ⟨hb1, hi1⟩ := parse_inv hb hi hp1
            obtain ⟨hb2, hi2⟩ := parse_inv hb1 hi1 hp2
            rw [hbn]
            exact ⟨hb2, hi2⟩
          case _ m hbind => exact twop hp1 hp2 _ h
  split at h
  · -- PUT
    split at h
    · exact unchanged _ h
    split at h
    · exact unchanged _ h
    case _ a0 v vars1 g1 hp =>
      split at h
      · exact onep hp _ h
      split at h
      · exact onep hp _ h
      case _ a1 d hd =>
        split at h
        case _ g3 hput =>
          simp only [Prod.mk.injEq] at h
          obtain ⟨hr, hv, hg⟩ := h
          subst hv
          subst hg
          obtain ⟨hpv, hpe, hpn⟩ := Sodg.put_ok hput
          refine ⟨parse_suffix hp, fun hb hi => ?_,
            fun e he => by rw [← hr] at he; simp at he⟩
          obtain ⟨hb1, hi1⟩ := parse_inv hb hi hp
          rw [hpn]
          exact ⟨hb1, hi1⟩
        case _ m hput => exact onep hp _ h
  · exact unchanged _ h

/-! ### Lemmas about the deploy loop -/

theorem deployLoop_ok_count : ∀ (cmds : List (List Char)) (vars : Vars) (g : Sodg)
    (pos n : Nat) (vars2 : Vars) (g2 : Sodg),
    deployLoop vars g cmds pos = (.ok n, vars2, g2) → n = pos + cmds.length := by
  intro cmds
  induction cmds with
  | nil =>
    intro vars g pos n vars2 g2 h
    simp only [deployLoop, Prod.mk.injEq, Except.ok.injEq] at h
    rw [← h.1, List.length_nil]
    omega
  | cons cmd rest ih =>
    intro vars g pos n vars2 g2 h
    simp only [deployLoop] at h
    split at h
    · have := ih _ _ _ _ _ _ h
      rw [this, List.length_cons]
      omega
    · simp only [Prod.mk.injEq] at h
      exact absurd h.1 (by simp)

theorem deployLoop_append : ∀ (cmds1 cmds2 : List (List Char)) (vars : Vars)
    (g : Sodg) (pos : Nat),
    deployLoop vars g (cmds1 ++ cmds2) pos =
      match deployLoop vars g cmds1 pos with
      | (.ok n, vars1, g1) => deployLoop vars1 g1 cmds2 n
      | (.error e, vars1, g1) => (.error e, vars1, g1) := by
  intro cmds1
  induction cmds1 with
  | nil => intro cmds2 vars g pos; simp [deployLoop]
  | cons cmd rest ih =>
    intro cmds2 vars g pos
    cases hstep : deployOne vars g cmd with
    | mk r0 st =>
      obtain ⟨vars1, g1⟩ := st
      cases r0 with
      | ok u => simp only [List.cons_append, deployLoop, hstep]; exact ih cmds2 vars1 g1 (pos + 1)
      | error e => simp only [List.cons_append, deployLoop, hstep]

theorem deployLoop_suffix : ∀ (cmds : List (List Char)) (vars : Vars) (g : Sodg)
    (pos : Nat) (r : Except DeployErr Nat) (vars2 : Vars) (g2 : Sodg),
    deployLoop vars g cmds pos = (r, vars2, g2) → ∃ ex, vars2 = vars ++ ex := by
  intro cmds
  induction cmds with
  | nil =>
    intro vars g pos r vars2 g2 h
    simp only [deployLoop, Prod.mk.injEq] at h
    exact ⟨[], by rw [← h.2.1, List.append_nil]⟩
  | cons cmd rest ih =>
    intro vars g pos r vars2 g2 h
    simp only [deployLoop] at h
    split at h
    case _ u vars1 g1 hstep =>
      obtain ⟨ex1, he1⟩ := (deployOne_step hstep).1
      obtain ⟨ex2, he2⟩ := ih _ _ _ _ _ _ h
      exact ⟨ex1 ++ ex2, by rw [he2, he1, List.append_assoc]⟩
    case _ e vars1 g1 hstep =>
      simp only [Prod.mk.injEq] at h
      obtain ⟨ex1, he1⟩ := (deployOne_step hstep).1
      exact ⟨ex1, by rw [← h.2.1, he1]⟩

theorem deployLoop_inv : ∀ (cmds : List (List Char)) (vars : Vars) (g : Sodg)
    (pos : Nat) (r : Except DeployErr Nat) (vars2 : Vars) (g2 : Sodg),
    VarsBound vars g.next → VarsInj vars →
    deployLoop vars g cmds pos = (r, vars2, g2) →
    VarsBound vars2 g2.next ∧ VarsInj vars2 := by
  intro cmds
  induction cmds with
  | nil =>
    intro vars g pos r vars2 g2 hb hi h
    simp only [deployLoop, Prod.mk.injEq] at h
    rw [← h.2.1, ← h.2.2]
    exact ⟨hb, hi⟩
  | cons cmd rest ih =>
    intro vars g pos r vars2 g2 hb hi h
    simp only [deployLoop] at h
    split at h
    case _ u vars1 g1 hstep =>
      obtain ⟨hb1, hi1⟩ := (deployOne_step hstep).2.1 hb hi
      exact ih _ _ _ _ _ _ hb1 hi1 h
    case _ e vars1 g1 hstep =>
      simp only [Prod.mk.injEq] at h
      obtain ⟨hb1, hi1⟩ := (deployOne_step hstep).2.1 hb hi
      rw [← h.2.1, ← h.2.2]
      exact ⟨hb1, hi1⟩

/-! ### Lemmas about the payload parser -/

theorem canonChar_cases {a b : Char} (h : canonChar a = canonChar b) :
    isHexChar a = isHexChar b ∧ (isHexChar a = true → hexVal a = hexVal b) := by
  unfold canonChar at h
  by_cases ha : isHexChar a <;> by_cases hb : isHexChar b
  · rw [if_pos ha, if_pos hb] at h
    injection h with hv
    exact ⟨ha.trans hb.symm, fun _ => hv⟩
  · rw [if_pos ha, if_neg hb] at h
    simp at h
  · rw [if_neg ha, if_pos hb] at h
    simp at h
  · have ha2 : isHexChar a = false := by simpa using ha
    have hb2 : isHexChar b = false := by simpa using hb
    exact ⟨ha2.trans hb2.symm, fun hc => absurd hc ha⟩

theorem canon_all_eq : ∀ {d1 d2 : List Char},
    d1.map canonChar = d2.map canonChar → d1.all isHexChar = d2.all isHexChar := by
  intro d1
  induction d1 with
  | nil =>
    intro d2 h
    have : d2 = [] := by
      cases d2 with
      | nil => rfl
      | cons b t => simp at h
    subst this
    rfl
  | cons a t1 ih =>
    intro d2 h
    cases d2 with
    | nil => simp at h
    | cons b t2 =>
      simp only [List.map_cons, List.cons.injEq] at h
      simp only [List.all_cons, (canonChar_cases h.1).1, ih h.2]

theorem canon_decode_eq : ∀ (n : Nat) (d1 d2 : List Char), d1.length ≤ n →
    d1.map canonChar = d2.map canonChar → d1.all isHexChar = true →
    decodePairs d1 = decodePairs d2 := by
  intro n
  induction n with
  | zero =>
    intro d1 d2 hlen hmap _
    have h1 : d1 = [] := List.eq_nil_of_length_eq_zero (Nat.le_zero.mp hlen)
    subst h1
    have h2 : d2 = [] := by
      cases d2 with
      | nil => rfl
      | cons b t => simp at hmap
    subst h2
    rfl
  | succ n ih =>
    intro d1 d2 hlen hmap hall
    cases d1 with
    | nil =>
      have h2 : d2 = [] := by
        cases d2 with
        | nil => rfl
        | cons b t => simp at hmap
      subst h2
      rfl
    | cons a1 t1 =>
      cases d2 with
      | nil => simp at hmap
      | cons b1 t2 =>
        cases t1 with
        | nil =>
          cases t2 with
          | nil => rfl
          | cons b2 t2x => simp at hmap
        | cons a2 t1x =>
          cases t2 with
          | nil => simp at hmap
          | cons b2 t2x =>
            simp only [List.map_cons, List.cons.injEq] at hmap
            obtain ⟨hab1, hab2, hmapx⟩ := hmap
            simp only [List.all_cons, Bool.and_eq_true] at hall
            obtain ⟨ha1, ha2, hat⟩ := hall
            simp only [decodePairs]
            rw [(canonChar_cases hab1).2 ha1, (canonChar_cases hab2).2 ha2,
              ih t1x t2x (by simp only [List.length_cons] at hlen; omega) hmapx hat]

/-! ### Theorems for the specification claims -/

/-- C1: for every script and graph, if `deploy_to` returns `Ok n`, then
`n` equals the number of segments of the script text that remain
non-empty after comment stripping, splitting on `;`, and trimming (the
length of `commands`). -/
theorem deploy_to_ok_count (sc : Script) (g : Sodg) (n : Nat)
    (h : (Script.deploy_to sc g).1 = .ok n) :
    n = (commands sc.txt).length := by
  unfold Script.deploy_to at h
  cases hl : deployLoop sc.vars g (commands sc.txt) 0 with
  | mk r st =>
    obtain ⟨v2, gg⟩ := st
    rw [hl] at h
    have h2 : r = .ok n := h
    rw [h2] at hl
    have h3 := deployLoop_ok_count (commands sc.txt) sc.vars g 0 n v2 gg hl
    omega

theorem deploy_to_ok_count_witness :
    (Script.deploy_to (Script.from_str ("ADD(0); ADD(1);".data)) Sodg.empty).1 = .ok 2 ∧
    (2 : Nat) = (commands (Script.from_str ("ADD(0); ADD(1);".data)).txt).length :=
  ⟨by decide,
   deploy_to_ok_count (Script.from_str ("ADD(0); ADD(1);".data)) Sodg.empty 2 (by decide)⟩

/-- C2 (counterexample to the claim as stated): the applied-command
count is not incremented before the error test. "ADD(0); ADD(0);" fails
at the second command (zero-based index 1) after exactly one success,
and the positional context reports the pre-increment value `no.1`; had
the count been incremented before the failing command's error
propagation was tested, the reported number would have been 2. -/
theorem deploy_increment_order_cex :
    (Script.deploy_to (Script.from_str ("ADD(0); ADD(0);".data)) Sodg.empty).1 =
      .error (.err ["Failure at the command no.1: \x27ADD(0)\x27",
        "Failed to ADD(0)", "Vertex 0 already exists"]) ∧
    ¬((Script.deploy_to (Script.from_str ("ADD(0); ADD(0);".data)) Sodg.empty).1 =
      .error (.err ["Failure at the command no.2: \x27ADD(0)\x27",
        "Failed to ADD(0)", "Vertex 0 already exists"])) := by decide

/-- C2 (amended): the count is incremented only after a command
succeeds. A deployment whose first `k` commands succeed and whose next
command fails with `e` returns `e` wrapped with the positional context
naming the zero-based index `k` and the failing command's text; the
table and graph are those left by the failing command, whose vertices,
edges and payloads are exactly those after commands `0..k-1` (no
rollback, and the failing command did not mutate the graph). -/
theorem deploy_partial_failure (cmds1 cmds2 : List (List Char)) (cmd : List Char)
    (vars vars1 vars2 : Vars) (g g1 g2 : Sodg) (e : DeployErr)
    (h1 : deployLoop vars g cmds1 0 = (.ok cmds1.length, vars1, g1))
    (h2 : deployOne vars1 g1 cmd = (.error e, vars2, g2)) :
    deployLoop vars g (cmds1 ++ cmd :: cmds2) 0 =
      (.error (ctx ("Failure at the command no." ++ Nat.repr cmds1.length ++
        ": \x27" ++ String.mk cmd ++ "\x27") e), vars2, g2) ∧
    g2.vertices = g1.vertices ∧ g2.edges = g1.edges ∧ g2.payload = g1.payload := by
  constructor
  · rw [deployLoop_append, h1]
    simp only [deployLoop, h2]
  · exact (deployOne_step h2).2.2 e rfl

theorem deploy_partial_failure_witness :
    deployLoop [] Sodg.empty ["ADD(0)".data, "ADD(0)".data] 0 =
      (.error (ctx ("Failure at the command no." ++ Nat.repr 1 ++
        ": \x27" ++ String.mk ("ADD(0)".data) ++ "\x27")
        (.err ["Failed to ADD(0)", "Vertex 0 already exists"])),
       [], Sodg.mk [0] [] [] 1) ∧
    (Sodg.mk [0] [] [] 1).vertices = (Sodg.mk [0] [] [] 1).vertices ∧
    (Sodg.mk [0] [] [] 1).edges = (Sodg.mk [0] [] [] 1).edges ∧
    (Sodg.mk [0] [] [] 1).payload = (Sodg.mk [0] [] [] 1).payload := by
  have h := deploy_partial_failure ["ADD(0)".data] [] "ADD(0)".data
    [] [] [] Sodg.empty (Sodg.mk [0] [] [] 1) (Sodg.mk [0] [] [] 1)
    (.err ["Failed to ADD(0)", "Vertex 0 already exists"])
    (by decide) (by decide)
  exact h

/-- C3: a binding in the variable table is stable: a later parse of the
same `$`-variable returns the recorded id without touching the state,
and the binding survives every run of the deploy loop (the table only
grows, it is never overwritten). -/
theorem var_binding_stable (v : String) (i : Nat) (vars : Vars) (g : Sodg)
    (hv : lookupVar vars v = some i) :
    (∀ t, String.mk t = v → parse vars g ('$' :: t) = .ok (i, vars, g)) ∧
    (∀ cmds pos r vars2 g2, deployLoop vars g cmds pos = (r, vars2, g2) →
      lookupVar vars2 v = some i) := by
  constructor
  · intro t ht
    simp only [parse]
    rw [if_pos trivial, ht, hv]
  · intro cmds pos r vars2 g2 h
    obtain ⟨ex, he⟩ := deployLoop_suffix cmds vars g pos r vars2 g2 h
    rw [he]
    exact lookupVar_append_some hv

theorem var_binding_stable_witness :
    parse [("x", 7)] Sodg.empty ('$' :: "x".data) = .ok (7, [("x", 7)], Sodg.empty) ∧
    lookupVar (deployLoop [("x", 7)] Sodg.empty ["ADD(0)".data] 0).2.1 ("x") = some 7 := by
  have h := var_binding_stable ("x") 7 [("x", 7)] Sodg.empty (by decide)
  exact ⟨h.1 ("x".data) (by decide),
    h.2 ["ADD(0)".data] 0 (deployLoop [("x", 7)] Sodg.empty ["ADD(0)".data] 0).1
      (deployLoop [("x", 7)] Sodg.empty ["ADD(0)".data] 0).2.1
      (deployLoop [("x", 7)] Sodg.empty ["ADD(0)".data] 0).2.2 rfl⟩

/-- C4: in a single deployment of a fresh script, two distinct variable
names are bound to distinct vertex ids (the modelled facade's `next_id`
returns a never-before-used id on each call). -/
theorem distinct_vars_distinct_ids (txt : List Char) (g : Sodg)
    (r : Except DeployErr Nat) (sc2 : Script) (g2 : Sodg)
    (h : Script.deploy_to (Script.from_str txt) g = (r, sc2, g2))
    (v1 v2 : String) (i1 i2 : Nat)
    (h1 : lookupVar sc2.vars v1 = some i1) (h2 : lookupVar sc2.vars v2 = some i2)
    (hne : v1 ≠ v2) : i1 ≠ i2 := by
  have hvars : (Script.from_str txt).vars = [] := rfl
  have htxt : (Script.from_str txt).txt = txt := rfl
  unfold Script.deploy_to at h
  rw [hvars, htxt] at h
  cases hl : deployLoop [] g (commands txt) 0 with
  | mk r0 st =>
    obtain ⟨vars2, gg⟩ := st
    rw [hl] at h
    simp only [Prod.mk.injEq] at h
    obtain ⟨_, hsc, _⟩ := h
    have hinv := deployLoop_inv (commands txt) [] g 0 r0 vars2 gg
      (fun p hp => absurd hp (List.not_mem_nil p))
      (fun p hp => absurd hp (List.not_mem_nil p)) hl
    rw [← hsc] at h1 h2
    exact hinv.2 (v1, i1) (lookupVar_mem h1) (v2, i2) (lookupVar_mem h2) hne

theorem distinct_vars_distinct_ids_witness :
    lookupVar (Script.deploy_to (Script.from_str ("ADD($a); ADD($b);".data))
      Sodg.empty).2.1.vars ("a") = some 0 ∧
    lookupVar (Script.deploy_to (Script.from_str ("ADD($a); ADD($b);".data))
      Sodg.empty).2.1.vars ("b") = some 1 ∧
    (0 : Nat) ≠ 1 := by
  refine ⟨by decide, by decide, ?_⟩
  exact distinct_vars_distinct_ids ("ADD($a); ADD($b);".data) Sodg.empty
    (Script.deploy_to (Script.from_str ("ADD($a); ADD($b);".data)) Sodg.empty).1
    (Script.deploy_to (Script.from_str ("ADD($a); ADD($b);".data)) Sodg.empty).2.1
    (Script.deploy_to (Script.from_str ("ADD($a); ADD($b);".data)) Sodg.empty).2.2
    rfl ("a") ("b") 0 1 (by decide) (by decide) (by decide)

/-- C5: `parse_data` is a pure function of its input and is invariant
under whitespace (space, tab, LF, CR), `-` separators and the letter
case of hex digits: two inputs with the same canonical form yield the
same byte sequence on success and both fail otherwise. -/
theorem parse_data_canon_invariant (h1 h2 : List Char)
    (h : canonData h1 = canonData h2) :
    (parse_data h1).toOption = (parse_data h2).toOption := by
  unfold canonData at h
  have hall := canon_all_eq h
  have hlen : (stripData h1).length = (stripData h2).length := by
    have h4 := congrArg List.length h
    simpa using h4
  have hmatch : hexMatch (stripData h1) = hexMatch (stripData h2) := by
    unfold hexMatch
    rw [hall, hlen]
  simp only [parse_data]
  by_cases hm : hexMatch (stripData h1) = true
  · rw [if_pos hm, if_pos (by rw [← hmatch]; exact hm)]
    have hmall : (stripData h1).all isHexChar = true := by
      simp only [hexMatch, Bool.and_eq_true] at hm
      exact hm.1.1
    rw [canon_decode_eq (stripData h1).length (stripData h1) (stripData h2)
      le_rfl h hmall]
  · rw [if_neg hm, if_neg (by rw [← hmatch]; exact hm)]
    rfl

theorem parse_data_canon_invariant_witness :
    canonData ("d0-bf".data) = canonData (" D0BF".data) ∧
    (parse_data ("d0-bf".data)).toOption = (parse_data (" D0BF".data)).toOption :=
  ⟨by decide, parse_data_canon_invariant ("d0-bf".data) (" D0BF".data) (by decide)⟩

/-- C6: the argument parser resolves a trimmed argument by its first
character, rules tested in order: an empty argument fails with "Empty
identifier"; `$` returns the recorded binding or binds a fresh
`next_id()`; `ν` parses the remainder as a decimal u32; otherwise the
whole string is parsed as a decimal u32; a failed numeric conversion
fails with "Parsing of '<s>' failed". -/
theorem parse_spec (vars : Vars) (g : Sodg) :
    parse vars g [] = .error (.err ["Empty identifier"]) ∧
    (∀ t i, lookupVar vars (String.mk t) = some i →
      parse vars g ('$' :: t) = .ok (i, vars, g)) ∧
    (∀ t, lookupVar vars (String.mk t) = none →
      parse vars g ('$' :: t) =
        .ok (g.next, vars ++ [(String.mk t, g.next)], { g with next := g.next + 1 })) ∧
    (∀ t n, parseU32 t = some n → parse vars g ('ν' :: t) = .ok (n, vars, g)) ∧
    (∀ t, parseU32 t = none → parse vars g ('ν' :: t) =
      .error (.err ["Parsing of \x27" ++ String.mk ('ν' :: t) ++ "\x27 failed"])) ∧
    (∀ c t n, c ≠ '$' → c ≠ 'ν' → parseU32 (c :: t) = some n →
      parse vars g (c :: t) = .ok (n, vars, g)) ∧
    (∀ c t, c ≠ '$' → c ≠ 'ν' → parseU32 (c :: t) = none →
      parse vars g (c :: t) =
        .error (.err ["Parsing of \x27" ++ String.mk (c :: t) ++ "\x27 failed"])) := by
  refine ⟨rfl, ?_, ?_, ?_, ?_, ?_, ?_⟩
  · intro t i hl
    simp only [parse]
    rw [if_pos trivial, hl]
  · intro t hl
    simp only [parse]
    rw [if_pos trivial, hl]
    rfl
  · intro t n hp
    simp only [parse]
    rw [if_neg (by decide), if_pos trivial, hp]
  · intro t hp
    simp only [parse]
    rw [if_neg (by decide), if_pos trivial, hp]
  · intro c t n hc1 hc2 hp
    simp only [parse]
    rw [if_neg hc1, if_neg hc2, hp]
  · intro c t hc1 hc2 hp
    simp only [parse]
    rw [if_neg hc1, if_neg hc2, hp]

theorem parse_spec_witness :
    parse [] Sodg.empty ('$' :: "a".data) =
      .ok (0, [(String.mk ("a".data), 0)], { Sodg.empty with next := 1 }) ∧
    parse [] Sodg.empty ('ν' :: "7".data) = .ok (7, [], Sodg.empty) :=
  ⟨(parse_spec [] Sodg.empty).2.2.1 ("a".data) (by decide),
   (parse_spec [] Sodg.empty).2.2.2.1 ("7".data) 7 (by decide)⟩

/-- C7: the tokenizer removes every substring from a `#` to the next
line break, splits on `;`, trims, and drops empty segments; trailing
semicolons produce no command, a command may span multiple lines, and a
`#` comment at end of file with no final line break is not stripped. -/
theorem commands_spec :
    (∀ a b c2 : List Char, '#' ∉ a → '\n' ∉ b →
      stripComments (a ++ '#' :: (b ++ '\n' :: c2)) = a ++ stripComments c2) ∧
    (∀ a b : List Char, '#' ∉ a → '\n' ∉ b →
      stripComments (a ++ '#' :: b) = a ++ '#' :: b) ∧
    (∀ txt : List Char, commands txt =
      ((splitOnChar ';' (stripComments txt)).map trimChars).filter (fun t => t ≠ [])) ∧
    (∀ s : List Char,
      ((splitOnChar ';' (s ++ [';'])).map trimChars).filter (fun t => t ≠ []) =
      ((splitOnChar ';' s).map trimChars).filter (fun t => t ≠ [])) ∧
    commands ("BIND(0,\n 1, a);".data) = ["BIND(0,\n 1, a)".data] ∧
    commands ("ADD(0); # tail".data) = ["ADD(0)".data, "# tail".data] := by
  refine ⟨fun a b c2 ha hb => stripComments_comment c2 ha hb,
    fun a b ha hb => stripComments_eof_comment ha hb,
    fun txt => rfl, fun s => ?_, by decide, by decide⟩
  rw [splitOnChar_append_sep, List.map_append, List.filter_append]
  simp [trimChars]

theorem commands_spec_witness :
    stripComments ("x".data ++ '#' :: (" c".data ++ '\n' :: "y".data)) =
      "x".data ++ stripComments ("y".data) ∧
    stripComments ("AD".data ++ '#' :: " tail".data) =
      "AD".data ++ '#' :: " tail".data :=
  ⟨commands_spec.1 ("x".data) (" c".data) ("y".data) (by decide) (by decide),
   commands_spec.2.1 ("AD".data) (" tail".data) (by decide) (by decide)⟩

/-- C8 (counterexample to the claim as stated): the variable table is
not discarded when the deployment ends. After deploying "ADD($a);" the
script still carries the binding `a ↦ 0`, and a second `deploy_to` on
that script behaves differently from a `deploy_to` of a fresh script
with the same text (which would start from an empty table). -/
theorem script_vars_carryover_cex :
    (Script.deploy_to (Script.from_str ("ADD($a);".data)) Sodg.empty).2.1.vars =
      [("a", 0)] ∧
    Script.deploy_to
        ((Script.deploy_to (Script.from_str ("ADD($a);".data)) Sodg.empty).2.1)
        ((Script.deploy_to (Script.from_str ("ADD($a);".data)) Sodg.empty).2.2) ≠
      Script.deploy_to (Script.from_str ("ADD($a);".data))
        ((Script.deploy_to (Script.from_str ("ADD($a);".data)) Sodg.empty).2.2) := by
  decide

/-- C8 (amended): the table is created empty at construction and is
populated on first use of each `$name`, but it is not discarded when the
deployment ends: `deploy_to` keeps whatever table the deploy loop left,
so a second `deploy_to` starts from the previous deployment's
bindings. -/
theorem script_vars_lifecycle :
    (∀ txt, (Script.from_str txt).vars = []) ∧
    (∀ sc g, (Script.deploy_to sc g).2.1.vars =
      (deployLoop sc.vars g (commands sc.txt) 0).2.1) ∧
    (Script.deploy_to (Script.from_str ("ADD($a);".data)) Sodg.empty).2.1.vars =
      [("a", 0)] := by
  refine ⟨fun txt => rfl, fun sc g => ?_, by decide⟩
  unfold Script.deploy_to
  cases hq : deployLoop sc.vars g (commands sc.txt) 0 with
  | mk r st =>
    obtain ⟨v2, gg⟩ := st
    rfl

/-- C9 (counterexample to the claim as stated): a failing command is not
all-or-nothing for the deployer's own state. "BIND($a, 1, k)" on the
empty graph fails (vertex 0 is absent), yet it has already bound `a` to
a fresh id and consumed one `next_id` allocation. -/
theorem deploy_one_not_atomic_cex :
    (deployOne [] Sodg.empty ("BIND($a, 1, k)".data)).1 ≠ .ok () ∧
    (deployOne [] Sodg.empty ("BIND($a, 1, k)".data)).2.1 = [("a", 0)] ∧
    [("a", 0)] ≠ ([] : Vars) ∧
    (deployOne [] Sodg.empty ("BIND($a, 1, k)".data)).2.2.next = 1 ∧
    Sodg.empty.next = 0 := by decide

/-- C9 (amended): when `deploy_one` fails, the graph contents (vertices,
edges, payloads) are unchanged — each command makes at most one facade
mutation and a failing facade call mutates nothing — but fresh variable
bindings and allocator advances made while parsing the arguments of the
failing command do persist. -/
theorem deploy_one_graph_unchanged_on_error (vars : Vars) (g : Sodg)
    (cmd : List Char) (e : DeployErr) (vars2 : Vars) (g2 : Sodg)
    (h : deployOne vars g cmd = (.error e, vars2, g2)) :
    g2.vertices = g.vertices ∧ g2.edges = g.edges ∧ g2.payload = g.payload :=
  (deployOne_step h).2.2 e rfl

theorem deploy_one_graph_unchanged_on_error_witness :
    deployOne [] (Sodg.mk [0] [] [] 1) "PUT(0, zz)".data =
      (.error (.err ["Can\x27t parse data \x27zz\x27"]), [], Sodg.mk [0] [] [] 1) ∧
    (Sodg.mk [0] [] [] 1).vertices = (Sodg.mk [0] [] [] 1).vertices ∧
    (Sodg.mk [0] [] [] 1).edges = (Sodg.mk [0] [] [] 1).edges ∧
    (Sodg.mk [0] [] [] 1).payload = (Sodg.mk [0] [] [] 1).payload :=
  ⟨by decide, deploy_one_graph_unchanged_on_error [] (Sodg.mk [0] [] [] 1)
    "PUT(0, zz)".data (.err ["Can\x27t parse data \x27zz\x27"]) []
    (Sodg.mk [0] [] [] 1) (by decide)⟩

/-- C10: a well-shaped command whose opcode is ADD, BIND or PUT but
which has fewer arguments than the opcode's arity reaches the
out-of-bounds vector index in `deploy_one`: the deployer panics instead
of returning the positional error the contract requires. -/
theorem deploy_missing_arg_fatal :
    (Script.deploy_to (Script.from_str ("ADD();".data)) Sodg.empty).1 =
      .error .fatal ∧
    (deployOne [] Sodg.empty ("BIND(1)".data)).1 = .error .fatal ∧
    (deployOne [] (Sodg.mk [0] [] [] 1) "PUT(0)".data).1 = .error .fatal := by
  decide
